import Mathlib

/-!
Shallow embedding of the autonom-commodities oracle core.

Conventions of the embedding:
* Rust `f64` values are modelled as `ℚ`.  Every rational is "finite", so the
  source predicate `x.is_finite()` is always `true` in the model; `f64`
  rounding is not modelled -- properties are stated at the level of exact
  arithmetic, the level at which the specification states them.
* The transcendental `f64::exp` is not representable inside `ℚ`; it is
  abstracted as an explicit function parameter `expf : ℚ → ℚ` threaded to the
  two call sites of `f64::exp` in `cfd_consensus.rs`.  Theorems assume of it
  at most `∀ x, 0 ≤ expf x`, which is true of `f64::exp` (including gradual
  underflow to `0.0`).
* `Result<_, IndexError>` (only error: `IndexError::NoData`) is modelled by
  `Option`, with `Err(NoData)` becoming `none`.
* Integer types: `i64` timestamps become `ℤ`; `u64` / `usize` / `u32` become
  `ℕ`, with saturation written explicitly (`min`, truncated subtraction)
  where the source uses `saturating_mul` / `saturating_sub` / `as u32`.
* Rust's in-place `sort_by(partial_cmp)` on prices is modelled by
  `List.insertionSort (· ≤ ·)`: on the total order of `ℚ` the sorted list of
  values is unique, so the choice of (stable) sorting algorithm is
  irrelevant to the result.
* `Oracle::tick_once` performs I/O (provider fan-out, clock reads,
  publishing).  The embedding passes the collected provider results and the
  single timestamp `now` as inputs, and returns the published records
  instead of sending them; publisher errors do not affect oracle state in
  the source, so they are not modelled.
-/

attribute [local semireducible] Rat.mul Rat.add Rat.sub Rat.inv Rat.ofScientific

/-- Floor of a rational, written with `Int.fdiv` so that concrete instances
evaluate by kernel reduction. -/
def floorQ (x : ℚ) : ℤ := Int.fdiv x.num (x.den : ℤ)

/-- Model of `f64::round`: round half away from zero. -/
def roundQ (x : ℚ) : ℤ := if x < 0 then -(floorQ (-x + 1/2)) else floorQ (x + 1/2)

/-- Model of the provider tag enum `CfdSource` from types.rs. -/
inductive CfdSource where
  | Ninjas : CfdSource
  | Owninja : CfdSource
  | Other : String → CfdSource
deriving DecidableEq

/-- Model of `CfdQuote` from types.rs: one CFD provider quote. -/
structure CfdQuote where
  src : CfdSource
  price : ℚ
  ts_ms : ℤ
deriving DecidableEq

/-- Model of `IndexTick` from types.rs: a published mark. -/
structure IndexTick where
  symbol : String
  price : ℚ
  expo : ℤ
  ts_ms : ℤ
  source : String
  window_sec : ℕ
deriving DecidableEq

/-- Model of `ConsensusStats` from types.rs. -/
structure ConsensusStats where
  n_fresh : ℕ
  n_used : ℕ
  n_dropped : ℕ
  spread_bps : ℕ
  confidence : ℚ
deriving DecidableEq

/-- Model of `FundingUpdate` from types.rs. -/
structure FundingUpdate where
  symbol : String
  rate : ℚ
  interval_sec : ℕ
  ts_ms : ℤ
deriving DecidableEq

/-- Model of `FundingEngine` from funding.rs. -/
structure FundingEngine where
  kappa : ℚ
  cap : ℚ
  interval_sec : ℕ
deriving DecidableEq

/-- Model of `FundingEngine::compute` (funding.rs lines 13-23).  Rust's
`raw.clamp(-cap, cap)` is written out as its two comparisons. -/
def FundingEngine.compute (e : FundingEngine) (mark index_ref : IndexTick) : FundingUpdate :=
  let basis := (mark.price - index_ref.price) / index_ref.price
  let raw := e.kappa * basis
  let rate := if raw < -e.cap then -e.cap else if raw > e.cap then e.cap else raw
  { symbol := mark.symbol ++ "-PERP"
    rate := rate
    interval_sec := e.interval_sec
    ts_ms := mark.ts_ms }

/-- Model of `Ema` from funding.rs. -/
structure Ema where
  alpha : ℚ
  value : Option ℚ
deriving DecidableEq

/-- Model of `Ema::update` (funding.rs lines 32-38); returns the new value
together with the updated state (the source mutates `self`). -/
def Ema.update (e : Ema) (x : ℚ) : ℚ × Ema :=
  let v := match e.value with
    | none => x
    | some v => e.alpha * x + (1 - e.alpha) * v
  (v, { e with value := some v })

/-- Model of `CircuitBreaker` from oracle.rs. -/
structure CircuitBreaker where
  per_min_threshold : ℚ
  last_anchor_price : Option ℚ
  last_anchor_ms : Option ℤ
deriving DecidableEq

/-- Model of `CircuitBreaker::tripped` (oracle.rs lines 85-108); returns the
boolean result together with the updated state (the source mutates `self`). -/
def CircuitBreaker.tripped (cb : CircuitBreaker) (px : ℚ) (ts_ms : ℤ) :
    Bool × CircuitBreaker :=
  match cb.last_anchor_price, cb.last_anchor_ms with
  | some base_px, some base_ts =>
    let dt_ms : ℚ := ((max (ts_ms - base_ts) 1 : ℤ) : ℚ)
    let dt_ratio := 60000 / dt_ms
    let change := |px / base_px - 1| * dt_ratio
    if change > cb.per_min_threshold then (true, cb)
    else if dt_ms ≥ 10000 then
      (false, { cb with last_anchor_price := some px, last_anchor_ms := some ts_ms })
    else (false, cb)
  | _, _ => (false, { cb with last_anchor_price := some px, last_anchor_ms := some ts_ms })

/-- Model of `CfdConsensus` from cfd_consensus.rs.  The extra field `expf`
is the abstraction of `f64::exp` used by the weighting step (see the file
header). -/
structure CfdConsensus where
  symbol : String
  expo : ℤ
  tau_ms : ℕ
  mad_k : ℚ
  expf : ℚ → ℚ

namespace CfdConsensus

/-- Ascending sort of a price list (Rust `sort_by(partial_cmp)`). -/
def sortQ (l : List ℚ) : List ℚ := l.insertionSort (· ≤ ·)

/-- Model of `CfdConsensus::fuse` (cfd_consensus.rs lines 21-32): median
that averages the two middle elements on even counts.  `&self` is unused in
the source. -/
def fuse (_c : CfdConsensus) (prices : List ℚ) : Option ℚ :=
  if prices.isEmpty then none
  else
    let sorted := sortQ prices
    let mid := prices.length / 2
    if prices.length % 2 == 1 then some (sorted.getD mid 0)
    else some ((sorted.getD (mid - 1) 0 + sorted.getD mid 0) / 2)

/-- Model of `CfdConsensus::median` (cfd_consensus.rs lines 34-37):
element at index `len / 2` of the ascending sort.  The source indexing
`prices[len/2]` always has `len/2 < len` when the slice is nonempty; `getD`
with default `0` is only ever used in that regime by `build`. -/
def median (prices : List ℚ) : ℚ := (sortQ prices).getD (prices.length / 2) 0

/-- Model of `CfdConsensus::mad` (cfd_consensus.rs lines 39-45):
`1.4826 * m.max(1e-9)` where `m` is the same `len / 2` order statistic of
the sorted absolute deviations. -/
def mad (values : List ℚ) (med : ℚ) : ℚ :=
  let devs := sortQ (values.map fun v => |v - med|)
  let m := devs.getD (devs.length / 2) 0
  1.4826 * max m 1e-9

/-- Median anchor of a quote list, as computed at the start of
`CfdConsensus::build` (cfd_consensus.rs lines 52-53). -/
def medOf (quotes : List CfdQuote) : ℚ := median (quotes.map (·.price))

/-- MAD scale of a quote list, as computed in `CfdConsensus::build`
(cfd_consensus.rs line 54). -/
def madOf (quotes : List CfdQuote) : ℚ := mad (quotes.map (·.price)) (medOf quotes)

/-- The quotes kept by the MAD outlier filter of `CfdConsensus::build`
(cfd_consensus.rs lines 56-66, the loop written as a filter). -/
def keptOf (mad_k : ℚ) (quotes : List CfdQuote) : List CfdQuote :=
  quotes.filter fun q => decide (|q.price - medOf quotes| ≤ mad_k * madOf quotes)

/-- Combined freshness-and-deviation weight `w2` of one kept quote
(cfd_consensus.rs lines 71-76). -/
def weight (c : CfdConsensus) (now : ℤ) (quotes : List CfdQuote) (q : CfdQuote) : ℚ :=
  let age : ℚ := (((now - q.ts_ms).natAbs : ℕ) : ℚ)
  let w := c.expf (-(age / (c.tau_ms : ℚ)))
  let dev := min (|q.price - medOf quotes| / (madOf quotes + 1e-9)) 10
  w * c.expf (-(0.15 * dev))

/-- Accumulator `num` of `CfdConsensus::build` (cfd_consensus.rs line 77),
the loop written as a mapped sum over the kept quotes. -/
def weightNum (c : CfdConsensus) (now : ℤ) (quotes : List CfdQuote) : ℚ :=
  ((keptOf c.mad_k quotes).map fun q => weight c now quotes q * q.price).sum

/-- Accumulator `den` of `CfdConsensus::build` (cfd_consensus.rs line 78). -/
def weightDen (c : CfdConsensus) (now : ℤ) (quotes : List CfdQuote) : ℚ :=
  ((keptOf c.mad_k quotes).map (weight c now quotes)).sum

/-- Minimum kept price: the source folds `minp` from `f64::INFINITY` over
the kept quotes (cfd_consensus.rs lines 59-64); over a nonempty list this is
the fold of `min` from the first element. -/
def minKept : List CfdQuote → ℚ
  | [] => 0
  | q :: rest => rest.foldl (fun m q' => min m q'.price) q.price

/-- Maximum kept price (same loop, `maxp` from `f64::NEG_INFINITY`). -/
def maxKept : List CfdQuote → ℚ
  | [] => 0
  | q :: rest => rest.foldl (fun m q' => max m q'.price) q.price

/-- The `spread_bps` statistic of `CfdConsensus::build` (cfd_consensus.rs
line 83): `(((maxp - minp) / med).abs() * 10_000.0).round() as u32`, the
`as u32` cast written as explicit saturation. -/
def spreadOf (mad_k : ℚ) (quotes : List CfdQuote) : ℕ :=
  let kept := keptOf mad_k quotes
  (min (roundQ (|(maxKept kept - minKept kept) / medOf quotes| * 10000)) (2 ^ 32 - 1)).toNat

/-- The `confidence` statistic of `CfdConsensus::build` (cfd_consensus.rs
lines 84-88), the `f32` arithmetic modelled over `ℚ`. -/
def confidenceOf (mad_k : ℚ) (quotes : List CfdQuote) : ℚ :=
  min ((((keptOf mad_k quotes).length : ℚ) / (((max quotes.length 1 : ℕ)) : ℚ)) *
        (1 / (1 + (spreadOf mad_k quotes : ℚ) / 50))) 1

/-- Model of `CfdConsensus::build` (cfd_consensus.rs lines 47-106). -/
def build (c : CfdConsensus) (now : ℤ) (quotes : List CfdQuote) :
    Option (IndexTick × ConsensusStats) :=
  if quotes.isEmpty then none
  else
    let kept := keptOf c.mad_k quotes
    if kept.isEmpty then none
    else if weightDen c now quotes ≤ 0 then none
    else
      some ({ symbol := c.symbol, price := weightNum c now quotes / weightDen c now quotes,
              expo := c.expo, ts_ms := now, source := "cfd-consensus", window_sec := 0 },
            { n_fresh := quotes.length, n_used := kept.length,
              n_dropped := quotes.length - kept.length,
              spread_bps := spreadOf c.mad_k quotes,
              confidence := confidenceOf c.mad_k quotes })

end CfdConsensus

/-- Model of `OracleConfig` from config.rs, restricted to the fields that the
tick pipeline reads. -/
structure OracleConfig where
  symbol : String
  expo : ℤ
  mode_cfd_only : Bool
  cfd_min_fresh : ℕ
  cfd_tau_ms : ℕ
  cfd_mad_k : ℚ
  cfd_dispersion_bps_max : ℕ
  hours_guard : String
  max_step_per_tick : ℚ
deriving DecidableEq

/-- One successful provider response inside `Oracle::collect_cfd_quotes`:
the provider's name (used for the `CfdSource` mapping) together with the
returned tick.  A failed provider call is modelled as `none` in the results
list. -/
structure ProviderTick where
  pname : String
  price : ℚ
  ts_ms : ℤ
deriving DecidableEq

/-- Provider-name to `CfdSource` mapping of `Oracle::collect_cfd_quotes`
(oracle.rs lines 325-329). -/
def sourceOfName (pname : String) : CfdSource :=
  match pname.toLower with
  | "ninjas" => .Ninjas
  | "api-ninjas" => .Ninjas
  | "owninja" => .Owninja
  | "openwebninja" => .Owninja
  | other => .Other other

/-- Model of `Oracle::collect_cfd_quotes` (oracle.rs lines 307-360): keep
successful responses whose price is finite and positive (over `ℚ`,
positive), clamping timestamps more than 2 s in the future to `now`;
also return the number of attempted providers. -/
def collect_cfd_quotes (now : ℤ) (results : List (Option ProviderTick)) :
    List CfdQuote × ℕ :=
  let quotes := results.filterMap fun r =>
    r.bind fun t =>
      if 0 < t.price then
        some { src := sourceOfName t.pname, price := t.price,
               ts_ms := if t.ts_ms - now > 2000 then now else t.ts_ms }
      else none
  (quotes, results.length)

/-- Model of `Oracle::derived_staleness_ms` (oracle.rs lines 284-289):
`cfd_tau_ms.saturating_mul(3).clamp(15_000, 120_000)` on `u64`. -/
def derived_staleness_ms (cfg : OracleConfig) : ℕ :=
  let three_tau := min (3 * cfg.cfd_tau_ms) (2 ^ 64 - 1)
  min (max three_tau 15000) 120000

/-- Model of `Oracle::hours_ok` (oracle.rs lines 291-305): every branch of
the match returns `true` in the source. -/
def hours_ok (cfg : OracleConfig) : Bool :=
  match cfg.hours_guard with
  | "off" => true
  | "vendor" => true
  | _ => true

/-- The freshness filter of `Oracle::tick_once` (oracle.rs lines 186-191):
keep collected quotes with `(now - q.ts_ms).unsigned_abs() <= max_stale_ms`. -/
def freshQuotes (cfg : OracleConfig) (now : ℤ) (results : List (Option ProviderTick)) :
    List CfdQuote :=
  ((collect_cfd_quotes now results).1).filter fun q =>
    decide ((now - q.ts_ms).natAbs ≤ derived_staleness_ms cfg)

/-- The per-tick step clamp of `Oracle::tick_once` (oracle.rs lines
223-233): clamp the new mark into `[prev*(1-step), prev*(1+step)]`,
`step = max_step_per_tick.max(0.0005)`, when a previous good mark exists. -/
def stepClamp (prev? : Option IndexTick) (max_step_per_tick : ℚ) (mark : IndexTick) :
    IndexTick :=
  match prev? with
  | none => mark
  | some prev =>
    let step := max max_step_per_tick 0.0005
    let lo := prev.price * (1 - step)
    let hi := prev.price * (1 + step)
    if mark.price < lo then { mark with price := lo }
    else if mark.price > hi then { mark with price := hi }
    else mark

/-- The consensus builder that `Oracle::tick_once` constructs from its
configuration (oracle.rs lines 202-207), extended with the `expf`
abstraction of `f64::exp`. -/
def builderOf (cfg : OracleConfig) (expf : ℚ → ℚ) : CfdConsensus :=
  { symbol := cfg.symbol, expo := cfg.expo, tau_ms := cfg.cfd_tau_ms,
    mad_k := cfg.cfd_mad_k, expf := expf }

/-- The stages of `Oracle::tick_once` before the circuit breaker: hours
guard, CFD-only gate, collection, freshness filter, minimum-count check,
consensus build, and step clamp (oracle.rs lines 174-233).  Every early
`return` of the source becomes `none`.  The dispersion check (lines
218-221) only increments a metric and does not alter control flow or
state, so it has no residue here. -/
def clampedMark (cfg : OracleConfig) (expf : ℚ → ℚ) (last_good_mark : Option IndexTick)
    (now : ℤ) (results : List (Option ProviderTick)) : Option IndexTick :=
  if !(hours_ok cfg) then none
  else if cfg.mode_cfd_only then
    if (freshQuotes cfg now results).length < max cfg.cfd_min_fresh 1 then none
    else
      match (builderOf cfg expf).build now (freshQuotes cfg now results) with
      | none => none
      | some (mark, _stats) => some (stepClamp last_good_mark cfg.max_step_per_tick mark)
  else none

/-- The mutable state of `Oracle` (oracle.rs lines 112-139): the fields the
tick updates.  Immutable collaborators (`cfg`, the publisher, the funding
engine, the providers) are passed to `tick_once` as parameters. -/
structure OracleState where
  last_good_mark : Option IndexTick
  funding_ref_ema : Ema
  cb : CircuitBreaker
deriving DecidableEq

/-- Result of one tick: the updated oracle state plus what was handed to
`publish_index` / `publish_funding` (or `none` on an early return). -/
structure TickResult where
  state : OracleState
  published_mark : Option IndexTick
  published_funding : Option FundingUpdate
deriving DecidableEq

/-- The tail of `Oracle::tick_once` after the breaker decision (oracle.rs
lines 250-268): publish the mark, update the reference EMA with its price,
build the synthetic reference tick, compute and publish funding. -/
def finishPublish (fe : FundingEngine) (st : OracleState) (mark : IndexTick) : TickResult :=
  let r := st.funding_ref_ema.update mark.price
  let ref_tick : IndexTick :=
    { symbol := mark.symbol, price := r.1, expo := mark.expo, ts_ms := mark.ts_ms,
      source := "ref-ema", window_sec := 0 }
  let funding := fe.compute mark ref_tick
  { state := { st with funding_ref_ema := r.2 },
    published_mark := some mark,
    published_funding := some funding }

/-- Model of `Oracle::tick_once` (oracle.rs lines 173-280) in CFD-only
mode: the pre-breaker pipeline (`clampedMark`), then the circuit breaker
with freeze-to-last-good, then publication and funding. -/
def tick_once (cfg : OracleConfig) (expf : ℚ → ℚ) (fe : FundingEngine)
    (st : OracleState) (now : ℤ) (results : List (Option ProviderTick)) : TickResult :=
  match clampedMark cfg expf st.last_good_mark now results with
  | none => { state := st, published_mark := none, published_funding := none }
  | some mark1 =>
    let r := st.cb.tripped mark1.price mark1.ts_ms
    if r.1 then
      match st.last_good_mark with
      | some good => finishPublish fe { st with cb := r.2 } good
      | none => { state := { st with cb := r.2 },
                  published_mark := none, published_funding := none }
    else
      finishPublish fe { st with cb := r.2, last_good_mark := some mark1 } mark1

/-! Concrete instances used by the witness theorems below.  The exponential
parameter is instantiated with the constant-one function, which satisfies
the nonnegativity assumed of `f64::exp`. -/

/-- Concrete consensus configuration for witnesses. -/
def consW : CfdConsensus :=
  { symbol := "LH", expo := -8, tau_ms := 20000, mad_k := 6, expf := fun _ => 1 }

/-- Concrete quote pair for witnesses. -/
def quotesW : List CfdQuote :=
  [{ src := .Ninjas, price := 100, ts_ms := 0 }, { src := .Ninjas, price := 101, ts_ms := 0 }]

/-- The consensus tick that `consW.build 0 quotesW` produces. -/
def tickW : IndexTick :=
  { symbol := "LH", price := 201/2, expo := -8, ts_ms := 0, source := "cfd-consensus",
    window_sec := 0 }

/-- The consensus statistics that `consW.build 0 quotesW` produces. -/
def statsW : ConsensusStats :=
  { n_fresh := 2, n_used := 2, n_dropped := 0, spread_bps := 99, confidence := 50/149 }

/-- Concrete oracle configuration for witnesses. -/
def cfgW : OracleConfig :=
  { symbol := "LH", expo := -8, mode_cfd_only := true, cfd_min_fresh := 2, cfd_tau_ms := 20000,
    cfd_mad_k := 6, cfd_dispersion_bps_max := 80, hours_guard := "off",
    max_step_per_tick := 1/50 }

/-- Concrete funding engine (kappa 0.5, cap 0.004, 8 h) for witnesses. -/
def feW : FundingEngine := { kappa := 1/2, cap := 1/250, interval_sec := 28800 }

/-- Fresh oracle state (no prior mark, empty EMA, empty breaker anchor). -/
def stEmptyW : OracleState :=
  { last_good_mark := none, funding_ref_ema := { alpha := 1/200, value := none },
    cb := { per_min_threshold := 7/100, last_anchor_price := none, last_anchor_ms := none } }

/-- A previously accepted mark at price 100. -/
def prevW : IndexTick :=
  { symbol := "LH", price := 100, expo := -8, ts_ms := 0, source := "cfd-consensus",
    window_sec := 0 }

/-- Oracle state that already holds `prevW` as the last good mark. -/
def stPrevW : OracleState :=
  { last_good_mark := some prevW, funding_ref_ema := { alpha := 1/200, value := some 100 },
    cb := { per_min_threshold := 7/100, last_anchor_price := none, last_anchor_ms := none } }

/-- A previously accepted mark at price 102 (scenario S4). -/
def goodW : IndexTick :=
  { symbol := "LH", price := 102, expo := -8, ts_ms := 500, source := "cfd-consensus",
    window_sec := 0 }

/-- Oracle state with last good mark 102 and a breaker anchor (100, 0). -/
def stTripW : OracleState :=
  { last_good_mark := some goodW, funding_ref_ema := { alpha := 1/200, value := some 102 },
    cb := { per_min_threshold := 7/100, last_anchor_price := some 100, last_anchor_ms := some 0 } }

/-- Two healthy provider responses (prices 100 and 101 at time 0). -/
def resW : List (Option ProviderTick) :=
  [some { pname := "ninjas", price := 100, ts_ms := 0 },
   some { pname := "x", price := 101, ts_ms := 0 }]

/-- Two provider responses at price 110, time 30 s (scenario S4 jump). -/
def resJumpW : List (Option ProviderTick) :=
  [some { pname := "ninjas", price := 110, ts_ms := 30000 },
   some { pname := "x", price := 110, ts_ms := 30000 }]

/-- The step-clamped consensus mark of the S4 jump tick: the fused 110 is
clamped to 102 * 1.02 = 104.04. -/
def markJumpW : IndexTick :=
  { symbol := "LH", price := 2601/25, expo := -8, ts_ms := 30000, source := "cfd-consensus",
    window_sec := 0 }

/-- A mark at price 100 used as funding input (scenario S6). -/
def markFundW : IndexTick :=
  { symbol := "LH", price := 100, expo := -8, ts_ms := 42, source := "cfd-consensus",
    window_sec := 0 }

/-- A reference tick at price 99 used as funding input (scenario S6). -/
def refFundW : IndexTick :=
  { symbol := "LH", price := 99, expo := -8, ts_ms := 42, source := "ref-ema", window_sec := 0 }

/-- A breaker with threshold 7%/min anchored at (100, 0) (scenario S4). -/
def cbW : CircuitBreaker :=
  { per_min_threshold := 7/100, last_anchor_price := some 100, last_anchor_ms := some 0 }

/-- C3: for every mark and reference tick with positive reference price and a
nonnegative cap, `FundingEngine::compute` returns the basis-driven rate
clamped into `[-cap, cap]` — hence `|rate| ≤ cap` — with symbol
`mark.symbol ++ "-PERP"` and the mark's timestamp. -/
theorem funding_compute_spec (fe : FundingEngine) (mark index_ref : IndexTick)
    (href : 0 < index_ref.price) (hcap : 0 ≤ fe.cap) :
    (fe.compute mark index_ref).rate =
      (if fe.kappa * ((mark.price - index_ref.price) / index_ref.price) < -fe.cap then -fe.cap
       else if fe.kappa * ((mark.price - index_ref.price) / index_ref.price) > fe.cap then fe.cap
       else fe.kappa * ((mark.price - index_ref.price) / index_ref.price)) ∧
    |(fe.compute mark index_ref).rate| ≤ fe.cap ∧
    (fe.compute mark index_ref).symbol = mark.symbol ++ "-PERP" ∧
    (fe.compute mark index_ref).ts_ms = mark.ts_ms := by
  refine ⟨rfl, ?_, rfl, rfl⟩
  simp only [FundingEngine.compute]
  split_ifs with h1 h2
  · rw [abs_neg, abs_of_nonneg hcap]
  · rw [abs_of_nonneg hcap]
  · exact abs_le.mpr ⟨not_lt.mp h1, not_lt.mp h2⟩

/-- Witness for C3, scenario S6: mark 100 against reference 99 with kappa 0.5
and cap 0.004 clamps the raw rate 0.00505... to exactly 0.004. -/
theorem funding_compute_spec_witness :
    (feW.compute markFundW refFundW).rate = 1/250 ∧
    |(feW.compute markFundW refFundW).rate| ≤ feW.cap ∧
    (feW.compute markFundW refFundW).symbol = "LH-PERP" ∧
    (feW.compute markFundW refFundW).ts_ms = 42 :=
  ⟨by decide, (funding_compute_spec feW markFundW refFundW (by decide) (by decide)).2.1,
   by decide, by decide⟩

/-- C4: with an anchor `(base_px, base_ts)` set, `CircuitBreaker::tripped`
reports tripped exactly when the 60 s-normalized move exceeds the threshold,
keeping the anchor in that case; when not tripped it rolls the anchor to
`(px, ts_ms)` precisely when `max(ts_ms - base_ts, 1) ≥ 10_000` and keeps it
otherwise; with no anchor set it installs `(px, ts_ms)` and reports not
tripped. -/
theorem breaker_tripped_spec (cb : CircuitBreaker) (px : ℚ) (ts_ms : ℤ) :
    (∀ base_px base_ts, cb.last_anchor_price = some base_px → cb.last_anchor_ms = some base_ts →
      ((cb.tripped px ts_ms).1 = true ↔
        |px / base_px - 1| * (60000 / ((max (ts_ms - base_ts) 1 : ℤ) : ℚ)) >
          cb.per_min_threshold) ∧
      ((cb.tripped px ts_ms).1 = true → (cb.tripped px ts_ms).2 = cb) ∧
      ((cb.tripped px ts_ms).1 = false →
        (cb.tripped px ts_ms).2 =
          if (10000 : ℚ) ≤ ((max (ts_ms - base_ts) 1 : ℤ) : ℚ) then
            { cb with last_anchor_price := some px, last_anchor_ms := some ts_ms }
          else cb)) ∧
    (cb.last_anchor_price = none ∨ cb.last_anchor_ms = none →
      (cb.tripped px ts_ms).1 = false ∧
      (cb.tripped px ts_ms).2 =
        { cb with last_anchor_price := some px, last_anchor_ms := some ts_ms }) := by
  constructor
  · intro base_px base_ts hp hm
    have e : cb.tripped px ts_ms =
        if |px / base_px - 1| * (60000 / ((max (ts_ms - base_ts) 1 : ℤ) : ℚ)) >
            cb.per_min_threshold then (true, cb)
        else if (10000 : ℚ) ≤ ((max (ts_ms - base_ts) 1 : ℤ) : ℚ) then
          (false, { cb with last_anchor_price := some px, last_anchor_ms := some ts_ms })
        else (false, cb) := by
      simp [CircuitBreaker.tripped, hp, hm, ge_iff_le]
    by_cases h1 : |px / base_px - 1| * (60000 / ((max (ts_ms - base_ts) 1 : ℤ) : ℚ)) >
        cb.per_min_threshold
    · rw [e, if_pos h1]
      exact ⟨⟨fun _ => h1, fun _ => rfl⟩, fun _ => rfl, fun hf => absurd hf (by simp)⟩
    · rw [e, if_neg h1]
      by_cases h2 : (10000 : ℚ) ≤ ((max (ts_ms - base_ts) 1 : ℤ) : ℚ)
      · rw [if_pos h2]
        exact ⟨⟨fun hf => absurd hf (by simp), fun hc => absurd hc h1⟩,
          fun ht => absurd ht (by simp), fun _ => by rw [if_pos h2]⟩
      · rw [if_neg h2]
        exact ⟨⟨fun hf => absurd hf (by simp), fun hc => absurd hc h1⟩,
          fun ht => absurd ht (by simp), fun _ => by rw [if_neg h2]⟩
  · intro hnone
    cases hp : cb.last_anchor_price with
    | none => exact ⟨by simp [CircuitBreaker.tripped, hp], by simp [CircuitBreaker.tripped, hp]⟩
    | some a =>
      cases hm : cb.last_anchor_ms with
      | none =>
        exact ⟨by simp [CircuitBreaker.tripped, hp, hm],
          by simp [CircuitBreaker.tripped, hp, hm]⟩
      | some b => rcases hnone with hn | hn <;> simp_all

/-- Witness for C4, scenario S4: anchor (100, 0), new input (110, 30000 ms)
gives a normalized move of 0.20 > 0.07, so the breaker trips and the anchor
is kept. -/
theorem breaker_tripped_spec_witness :
    (cbW.tripped 110 30000).1 = true ∧ (cbW.tripped 110 30000).2 = cbW := by
  have h := (breaker_tripped_spec cbW 110 30000).1 100 0 rfl rfl
  have ht : (cbW.tripped 110 30000).1 = true := h.1.mpr (by decide)
  exact ⟨ht, h.2.1 ht⟩

namespace CfdConsensus

lemma foldl_min_le_init (rest : List CfdQuote) (a : ℚ) :
    rest.foldl (fun m q' => min m q'.price) a ≤ a := by
  induction rest generalizing a with
  | nil => exact le_refl a
  | cons q t ih => exact le_trans (ih (min a q.price)) (min_le_left _ _)

lemma foldl_min_le (rest : List CfdQuote) (a : ℚ) (q : CfdQuote) (hq : q ∈ rest) :
    rest.foldl (fun m q' => min m q'.price) a ≤ q.price := by
  induction rest generalizing a with
  | nil => cases hq
  | cons h t ih =>
    rcases List.mem_cons.mp hq with rfl | hmem
    · exact le_trans (foldl_min_le_init t _) (min_le_right _ _)
    · exact ih _ hmem

lemma minKept_le (l : List CfdQuote) (q : CfdQuote) (hq : q ∈ l) :
    minKept l ≤ q.price := by
  cases l with
  | nil => cases hq
  | cons h t =>
    rcases List.mem_cons.mp hq with rfl | hmem
    · exact foldl_min_le_init t _
    · exact foldl_min_le t _ _ hmem

lemma le_foldl_max_init (rest : List CfdQuote) (a : ℚ) :
    a ≤ rest.foldl (fun m q' => max m q'.price) a := by
  induction rest generalizing a with
  | nil => exact le_refl a
  | cons q t ih => exact le_trans (le_max_left _ _) (ih (max a q.price))

lemma le_foldl_max (rest : List CfdQuote) (a : ℚ) (q : CfdQuote) (hq : q ∈ rest) :
    q.price ≤ rest.foldl (fun m q' => max m q'.price) a := by
  induction rest generalizing a with
  | nil => cases hq
  | cons h t ih =>
    rcases List.mem_cons.mp hq with rfl | hmem
    · exact le_trans (le_max_right _ _) (le_foldl_max_init t _)
    · exact ih _ hmem

lemma le_maxKept (l : List CfdQuote) (q : CfdQuote) (hq : q ∈ l) :
    q.price ≤ maxKept l := by
  cases l with
  | nil => cases hq
  | cons h t =>
    rcases List.mem_cons.mp hq with rfl | hmem
    · exact le_foldl_max_init t _
    · exact le_foldl_max t _ _ hmem

lemma foldl_min_pos (rest : List CfdQuote) (a : ℚ) (ha : 0 < a)
    (h : ∀ q ∈ rest, 0 < q.price) :
    0 < rest.foldl (fun m q' => min m q'.price) a := by
  induction rest generalizing a with
  | nil => exact ha
  | cons q t ih =>
    exact ih _ (lt_min ha (h q (by simp))) fun p hp => h p (List.mem_cons_of_mem _ hp)

lemma minKept_pos (l : List CfdQuote) (h : ∀ q ∈ l, 0 < q.price) (hne : l ≠ []) :
    0 < minKept l := by
  cases l with
  | nil => exact absurd rfl hne
  | cons q t =>
    exact foldl_min_pos t _ (h q (by simp)) fun p hp => h p (by simp [hp])

lemma weight_nonneg (c : CfdConsensus) (now : ℤ) (quotes : List CfdQuote)
    (hexp : ∀ x, 0 ≤ c.expf x) (q : CfdQuote) : 0 ≤ weight c now quotes q :=
  mul_nonneg (hexp _) (hexp _)

lemma build_eq_some (c : CfdConsensus) (now : ℤ) (quotes : List CfdQuote)
    (t : IndexTick) (s : ConsensusStats) (h : c.build now quotes = some (t, s)) :
    quotes ≠ [] ∧ keptOf c.mad_k quotes ≠ [] ∧ 0 < weightDen c now quotes ∧
    t = { symbol := c.symbol, price := weightNum c now quotes / weightDen c now quotes,
          expo := c.expo, ts_ms := now, source := "cfd-consensus", window_sec := 0 } ∧
    s = { n_fresh := quotes.length, n_used := (keptOf c.mad_k quotes).length,
          n_dropped := quotes.length - (keptOf c.mad_k quotes).length,
          spread_bps := spreadOf c.mad_k quotes,
          confidence := confidenceOf c.mad_k quotes } := by
  by_cases h0 : quotes.isEmpty
  · simp [build, h0] at h
  · by_cases h1 : (keptOf c.mad_k quotes).isEmpty
    · simp [build, h0, h1] at h
    · by_cases h2 : weightDen c now quotes ≤ 0
      · simp [build, h0, h1, h2] at h
      · simp only [build, h0, h1, h2, Bool.false_eq_true, if_false, if_neg h2,
          Option.some.injEq, Prod.mk.injEq] at h
        exact ⟨by simpa [List.isEmpty_iff] using h0, by simpa [List.isEmpty_iff] using h1,
          lt_of_not_le h2, h.1.symm, h.2.symm⟩

lemma build_price_bounds (c : CfdConsensus) (now : ℤ) (quotes : List CfdQuote)
    (t : IndexTick) (s : ConsensusStats) (hexp : ∀ x, 0 ≤ c.expf x)
    (h : c.build now quotes = some (t, s)) :
    minKept (keptOf c.mad_k quotes) ≤ t.price ∧
    t.price ≤ maxKept (keptOf c.mad_k quotes) := by
  obtain ⟨-, hkept, hden, ht, -⟩ := build_eq_some c now quotes t s h
  have hub : weightNum c now quotes ≤ maxKept (keptOf c.mad_k quotes) * weightDen c now quotes := by
    unfold weightNum weightDen
    calc ((keptOf c.mad_k quotes).map fun q => weight c now quotes q * q.price).sum
        ≤ ((keptOf c.mad_k quotes).map fun q =>
            maxKept (keptOf c.mad_k quotes) * weight c now quotes q).sum := by
          refine List.sum_le_sum fun q hq => ?_
          calc weight c now quotes q * q.price
              ≤ weight c now quotes q * maxKept (keptOf c.mad_k quotes) :=
                mul_le_mul_of_nonneg_left (le_maxKept _ _ hq) (weight_nonneg c now quotes hexp q)
            _ = maxKept (keptOf c.mad_k quotes) * weight c now quotes q := mul_comm _ _
      _ = maxKept (keptOf c.mad_k quotes) * ((keptOf c.mad_k quotes).map
            (weight c now quotes)).sum := List.sum_map_mul_left _ _ _
  have hlb : minKept (keptOf c.mad_k quotes) * weightDen c now quotes ≤
      weightNum c now quotes := by
    unfold weightNum weightDen
    calc minKept (keptOf c.mad_k quotes) * ((keptOf c.mad_k quotes).map
            (weight c now quotes)).sum
        = ((keptOf c.mad_k quotes).map fun q =>
            minKept (keptOf c.mad_k quotes) * weight c now quotes q).sum :=
          (List.sum_map_mul_left _ _ _).symm
      _ ≤ ((keptOf c.mad_k quotes).map fun q => weight c now quotes q * q.price).sum := by
          refine List.sum_le_sum fun q hq => ?_
          calc minKept (keptOf c.mad_k quotes) * weight c now quotes q
              = weight c now quotes q * minKept (keptOf c.mad_k quotes) := mul_comm _ _
            _ ≤ weight c now quotes q * q.price :=
                mul_le_mul_of_nonneg_left (minKept_le _ _ hq) (weight_nonneg c now quotes hexp q)
  subst ht
  constructor
  · exact (le_div_iff hden).mpr hlb
  · exact (div_le_iff hden).mpr hub

/-- C7: whenever `CfdConsensus::build` succeeds, the fused price equals the
weighted mean `Σ w_i * price_i / Σ w_i` over the MAD-kept quotes and lies
within `[min_kept, max_kept]`; and the weight-sum is strictly positive at
success, i.e. `build` fails whenever `Σ w_i ≤ 0`.  The weight nonnegativity
hypothesis holds of `f64::exp`. -/
theorem build_fused_mean_bounds (c : CfdConsensus) (now : ℤ) (quotes : List CfdQuote)
    (t : IndexTick) (s : ConsensusStats) (hexp : ∀ x, 0 ≤ c.expf x)
    (h : c.build now quotes = some (t, s)) :
    t.price = weightNum c now quotes / weightDen c now quotes ∧
    0 < weightDen c now quotes ∧
    minKept (keptOf c.mad_k quotes) ≤ t.price ∧
    t.price ≤ maxKept (keptOf c.mad_k quotes) := by
  obtain ⟨-, -, hden, ht, -⟩ := build_eq_some c now quotes t s h
  obtain ⟨h1, h2⟩ := build_price_bounds c now quotes t s hexp h
  exact ⟨by rw [ht], hden, h1, h2⟩

/-- Witness for C7 at two quotes (100, 101): the fused price 100.5 lies
between the kept minimum and maximum and the weight-sum is positive. -/
theorem build_fused_mean_bounds_witness :
    tickW.price = weightNum consW 0 quotesW / weightDen consW 0 quotesW ∧
    0 < weightDen consW 0 quotesW ∧
    minKept (keptOf consW.mad_k quotesW) ≤ tickW.price ∧
    tickW.price ≤ maxKept (keptOf consW.mad_k quotesW) :=
  build_fused_mean_bounds consW 0 quotesW tickW statsW
    (fun x => by simp [consW]) (by decide)

/-- C10: whenever `CfdConsensus::build` succeeds, the returned statistics
satisfy `n_fresh = |quotes|`, `n_used ≥ 1`, `n_dropped = n_fresh - n_used`,
and `confidence ∈ [0, 1]`. -/
theorem build_stats_invariants (c : CfdConsensus) (now : ℤ) (quotes : List CfdQuote)
    (t : IndexTick) (s : ConsensusStats) (h : c.build now quotes = some (t, s)) :
    s.n_fresh = quotes.length ∧ 1 ≤ s.n_used ∧ s.n_dropped = s.n_fresh - s.n_used ∧
    0 ≤ s.confidence ∧ s.confidence ≤ 1 := by
  obtain ⟨-, hkept, -, -, hs⟩ := build_eq_some c now quotes t s h
  subst hs
  refine ⟨rfl, List.length_pos.mpr hkept, rfl, ?_, min_le_right _ _⟩
  unfold confidenceOf
  refine le_min (mul_nonneg (div_nonneg (Nat.cast_nonneg _) (Nat.cast_nonneg _)) ?_) zero_le_one
  have h50 : (0 : ℚ) ≤ (spreadOf c.mad_k quotes : ℚ) / 50 :=
    div_nonneg (Nat.cast_nonneg _) (by norm_num)
  have : (0 : ℚ) < 1 + (spreadOf c.mad_k quotes : ℚ) / 50 := by linarith
  positivity

/-- Witness for C10 at two quotes (100, 101): the stats are (2, 2, 0) with
confidence 50/149 inside the unit interval. -/
theorem build_stats_invariants_witness :
    statsW.n_fresh = quotesW.length ∧ 1 ≤ statsW.n_used ∧
    statsW.n_dropped = statsW.n_fresh - statsW.n_used ∧
    0 ≤ statsW.confidence ∧ statsW.confidence ≤ 1 :=
  build_stats_invariants consW 0 quotesW tickW statsW (by decide)

end CfdConsensus

namespace CfdConsensus

/-- Counterexample for C8: on the even-length price list [1, 3] the median
anchor that `build` uses is 3, the element at sorted index 1 — the upper of
the two middle elements — while the lower median at sorted index 0 is 1. -/
theorem median_lower_counterexample :
    median [1, 3] = 3 ∧ sortQ [1, 3] = [1, 3] ∧ (3 : ℚ) ≠ 1 := by decide

/-- C8 (amended): on even counts the median anchor used by
`CfdConsensus::build` is the element at sorted index `n/2`, the upper of
the two middle elements, while the sibling `CfdConsensus::fuse` averages
the two middle elements. -/
theorem median_upper_mid_fuse_averages (c : CfdConsensus) (l : List ℚ)
    (hne : l ≠ []) (heven : l.length % 2 = 0) :
    median l = (sortQ l).getD (l.length / 2) 0 ∧
    (sortQ l).getD (l.length / 2 - 1) 0 ≤ median l ∧
    c.fuse l = some (((sortQ l).getD (l.length / 2 - 1) 0 +
      (sortQ l).getD (l.length / 2) 0) / 2) := by
  have hlen : 0 < l.length := List.length_pos.mpr hne
  have h2 : 2 ≤ l.length := by omega
  have hsl : (sortQ l).length = l.length := List.length_insertionSort _ l
  refine ⟨rfl, ?_, ?_⟩
  · have hsorted : List.Sorted (· ≤ ·) (sortQ l) := List.sorted_insertionSort _ l
    have hj : l.length / 2 < (sortQ l).length := by rw [hsl]; omega
    have hi : l.length / 2 - 1 < (sortQ l).length := by rw [hsl]; omega
    rw [median, List.getD_eq_getElem _ _ hi, List.getD_eq_getElem _ _ hj]
    have hij : l.length / 2 - 1 < l.length / 2 := by omega
    exact hsorted.rel_get_of_lt (by simpa using hij)
  · have hne' : l.isEmpty = false := by simpa [List.isEmpty_iff] using hne
    have hodd : (l.length % 2 == 1) = false := by simp [heven]
    simp [fuse, hne', hodd]

/-- Witness for C8 at [1, 3]: the anchor is 3 (at least the lower middle 1),
and fuse averages to 2. -/
theorem median_upper_mid_fuse_averages_witness :
    (sortQ [1, 3]).getD 0 0 ≤ median [1, 3] ∧ consW.fuse [1, 3] = some 2 := by
  have h := median_upper_mid_fuse_averages consW [1, 3] (by decide) (by decide)
  exact ⟨by simpa using h.2.1, by simpa using h.2.2⟩

/-- Counterexample for C9: with the identical price list [100, 100] (median
100) the code computes `1.4826 * max(0, 1e-9) = 1.4826e-9`, which differs
both from the claimed formula `max(1.4826 * median_dev, 1e-9) = 1e-9` and
from the claimed identical-price value 1e-9. -/
theorem mad_identical_counterexample :
    mad [100, 100] (median [100, 100]) ≠
      max (1.4826 * median ((([100, 100] : List ℚ)).map fun v =>
        |v - median [100, 100]|)) 1e-9 ∧
    mad [100, 100] (median [100, 100]) ≠ 1e-9 := by decide

/-- C9 (amended): the MAD scale computed inside `CfdConsensus::build`
equals `1.4826 * max(median(|price_i - med|), 1e-9)` — the 1e-9 floor is
applied inside the 1.4826 factor — and in particular when all prices equal
the median the MAD used downstream is exactly `1.4826e-9`. -/
theorem mad_floor_inside_factor (values : List ℚ) (med : ℚ) (hne : values ≠ []) :
    mad values med = 1.4826 * max (median (values.map fun v => |v - med|)) 1e-9 ∧
    ((∀ v ∈ values, v = med) → mad values med = 1.4826 * 1e-9) := by
  constructor
  · simp [mad, median, sortQ, List.length_insertionSort]
  · intro hall
    have h0 : ∀ x ∈ values.map (fun v => |v - med|), x = 0 := by
      intro x hx
      rcases List.mem_map.mp hx with ⟨v, hv, rfl⟩
      rw [hall v hv]
      simp
    have hlen : 0 < (values.map (fun v => |v - med|)).length := by
      simpa using List.length_pos.mpr hne
    have hidx : (values.map (fun v => |v - med|)).length / 2 <
        (sortQ (values.map fun v => |v - med|)).length := by
      rw [sortQ, List.length_insertionSort]
      omega
    have hval : (sortQ (values.map fun v => |v - med|)).getD
        ((values.map (fun v => |v - med|)).length / 2) 0 = 0 := by
      rw [List.getD_eq_getElem _ _ hidx]
      refine h0 _ ?_
      exact (List.perm_insertionSort _ _).subset (List.getElem_mem _)
    have : mad values med = 1.4826 * max 0 1e-9 := by
      rw [mad]
      rw [show (sortQ (values.map fun v => |v - med|)).length =
        (values.map (fun v => |v - med|)).length from List.length_insertionSort _ _]
      rw [hval]
    rw [this, max_eq_right (by norm_num)]

/-- Witness for C9 at [100, 100] with median 100: the MAD comes out as
exactly 1.4826e-9. -/
theorem mad_floor_inside_factor_witness :
    mad [100, 100] (100 : ℚ) = 1.4826 * 1e-9 :=
  (mad_floor_inside_factor [100, 100] 100 (by decide)).2 (by decide)

end CfdConsensus

lemma hours_ok_true (cfg : OracleConfig) : hours_ok cfg = true := by
  unfold hours_ok
  split <;> rfl

lemma tripped_true_keeps (cb : CircuitBreaker) (px : ℚ) (ts : ℤ)
    (h : (cb.tripped px ts).1 = true) : (cb.tripped px ts).2 = cb := by
  cases hp : cb.last_anchor_price with
  | none => simp [CircuitBreaker.tripped, hp] at h
  | some a =>
    cases hm : cb.last_anchor_ms with
    | none => simp [CircuitBreaker.tripped, hp, hm] at h
    | some b =>
      simp only [CircuitBreaker.tripped, hp, hm] at h ⊢
      split_ifs at h ⊢ <;> simp_all

lemma collect_mem_pos (now : ℤ) (results : List (Option ProviderTick)) (q : CfdQuote)
    (hq : q ∈ (collect_cfd_quotes now results).1) : 0 < q.price := by
  unfold collect_cfd_quotes at hq
  rcases List.mem_filterMap.mp hq with ⟨r, hr, he⟩
  cases r with
  | none => simp at he
  | some t =>
    simp only [Option.some_bind] at he
    split_ifs at he with hpos
    all_goals first
    | (cases he; exact hpos)
    | (cases he)

lemma fresh_mem_pos (cfg : OracleConfig) (now : ℤ) (results : List (Option ProviderTick))
    (q : CfdQuote) (hq : q ∈ freshQuotes cfg now results) : 0 < q.price :=
  collect_mem_pos now results q (List.mem_of_mem_filter hq)

lemma stepClamp_bound (prev mark : IndexTick) (ms : ℚ) (hpos : 0 ≤ prev.price) :
    |(stepClamp (some prev) ms mark).price - prev.price| ≤ max ms 0.0005 * prev.price := by
  have hs : (0 : ℚ) ≤ max ms 0.0005 := le_trans (by norm_num) (le_max_right _ _)
  have hsp : 0 ≤ max ms 0.0005 * prev.price := mul_nonneg hs hpos
  simp only [stepClamp]
  split_ifs with h1 h2
  · show |prev.price * (1 - max ms 0.0005) - prev.price| ≤ max ms 0.0005 * prev.price
    rw [show prev.price * (1 - max ms 0.0005) - prev.price =
      -(max ms 0.0005 * prev.price) by ring, abs_neg, abs_of_nonneg hsp]
  · show |prev.price * (1 + max ms 0.0005) - prev.price| ≤ max ms 0.0005 * prev.price
    rw [show prev.price * (1 + max ms 0.0005) - prev.price =
      max ms 0.0005 * prev.price by ring, abs_of_nonneg hsp]
  · have hlo : prev.price * (1 - max ms 0.0005) ≤ mark.price := not_lt.mp h1
    have hhi : mark.price ≤ prev.price * (1 + max ms 0.0005) := not_lt.mp h2
    rw [abs_le]
    constructor <;> nlinarith

lemma stepClamp_pos (prev? : Option IndexTick) (ms : ℚ) (mark : IndexTick)
    (h0 : 0 < mark.price) (hprev : ∀ p, prev? = some p → 0 < p.price) :
    0 < (stepClamp prev? ms mark).price := by
  cases prev? with
  | none => simpa [stepClamp] using h0
  | some prev =>
    have hp := hprev prev rfl
    have hs : (0.0005 : ℚ) ≤ max ms 0.0005 := le_max_right _ _
    simp only [stepClamp]
    split_ifs with h1 h2
    · exact lt_trans h0 h1
    · show 0 < prev.price * (1 + max ms 0.0005)
      have h1s : (0 : ℚ) < 1 + max ms 0.0005 := by
        have : (0.0005 : ℚ) > -1 := by norm_num
        linarith
      exact mul_pos hp h1s
    · exact h0

lemma clampedMark_eq_some (cfg : OracleConfig) (expf : ℚ → ℚ) (lg : Option IndexTick)
    (now : ℤ) (results : List (Option ProviderTick)) (mark1 : IndexTick)
    (h : clampedMark cfg expf lg now results = some mark1) :
    cfg.mode_cfd_only = true ∧
    max cfg.cfd_min_fresh 1 ≤ (freshQuotes cfg now results).length ∧
    ∃ mark0 stats,
      (builderOf cfg expf).build now (freshQuotes cfg now results) = some (mark0, stats) ∧
      mark1 = stepClamp lg cfg.max_step_per_tick mark0 := by
  unfold clampedMark at h
  rw [hours_ok_true cfg] at h
  simp only [Bool.not_true, Bool.false_eq_true, if_false] at h
  by_cases hmode : cfg.mode_cfd_only
  · rw [if_pos hmode] at h
    by_cases hcount : (freshQuotes cfg now results).length < max cfg.cfd_min_fresh 1
    · rw [if_pos hcount] at h
      cases h
    · rw [if_neg hcount] at h
      cases hb : (builderOf cfg expf).build now (freshQuotes cfg now results) with
      | none => rw [hb] at h; cases h
      | some p =>
        obtain ⟨mark0, stats⟩ := p
        rw [hb] at h
        refine ⟨hmode, not_lt.mp hcount, mark0, stats, rfl, ?_⟩
        exact (Option.some.injEq _ _ ▸ h).symm
  · rw [if_neg hmode] at h
    cases h

/-- C6: the freshness filter of `Oracle::tick_once` keeps a quote `q`
exactly when `|now - q.ts_ms| ≤ clamp(3 * cfd_tau_ms, 15_000, 120_000)`
(the `u64` saturation of `3 * tau` is absorbed by the clamp), and when
fewer than `max(1, cfd_min_fresh)` quotes remain the tick returns without
publishing and with the oracle state exactly as it was. -/
theorem fresh_filter_spec (cfg : OracleConfig) (expf : ℚ → ℚ) (fe : FundingEngine)
    (st : OracleState) (now : ℤ) (results : List (Option ProviderTick)) :
    (∀ q : CfdQuote, q ∈ freshQuotes cfg now results ↔
      q ∈ (collect_cfd_quotes now results).1 ∧
        (now - q.ts_ms).natAbs ≤ min (max (3 * cfg.cfd_tau_ms) 15000) 120000) ∧
    ((freshQuotes cfg now results).length < max 1 cfg.cfd_min_fresh →
      tick_once cfg expf fe st now results =
        { state := st, published_mark := none, published_funding := none }) := by
  have hstale : derived_staleness_ms cfg = min (max (3 * cfg.cfd_tau_ms) 15000) 120000 := by
    simp only [derived_staleness_ms]
    omega
  constructor
  · intro q
    rw [freshQuotes, List.mem_filter]
    simp [hstale]
  · intro hcount
    have hc' : (freshQuotes cfg now results).length < max cfg.cfd_min_fresh 1 := by omega
    have hcm : clampedMark cfg expf st.last_good_mark now results = none := by
      unfold clampedMark
      rw [hours_ok_true cfg]
      cases hm : cfg.mode_cfd_only <;> simp [hm, hc']
    unfold tick_once
    rw [hcm]

/-- Witness for C6: with no provider results the filter leaves zero quotes,
below the minimum of 2, and the tick is a no-op on the state. -/
theorem fresh_filter_spec_witness :
    tick_once cfgW (fun _ => 1) feW stEmptyW 0 [] =
      { state := stEmptyW, published_mark := none, published_funding := none } :=
  (fresh_filter_spec cfgW (fun _ => 1) feW stEmptyW 0 []).2 (by decide)

/-- C5: on a tick where the circuit breaker trips, if a previous good mark
exists the published mark is exactly that stored mark (its `ts_ms` and
`source` included) while `last_good_mark` and the breaker anchor stay
unchanged; with no prior good mark the tick publishes nothing and the whole
oracle state (EMA included) is unchanged. -/
theorem breaker_freeze_frame (cfg : OracleConfig) (expf : ℚ → ℚ) (fe : FundingEngine)
    (st : OracleState) (now : ℤ) (results : List (Option ProviderTick)) (mark1 : IndexTick)
    (hm : clampedMark cfg expf st.last_good_mark now results = some mark1)
    (htrip : (st.cb.tripped mark1.price mark1.ts_ms).1 = true) :
    (∀ good, st.last_good_mark = some good →
      (tick_once cfg expf fe st now results).published_mark = some good ∧
      (tick_once cfg expf fe st now results).state.last_good_mark = some good ∧
      (tick_once cfg expf fe st now results).state.cb = st.cb) ∧
    (st.last_good_mark = none →
      tick_once cfg expf fe st now results =
        { state := st, published_mark := none, published_funding := none }) := by
  obtain ⟨lg, ema, cb0⟩ := st
  have hcb := tripped_true_keeps cb0 mark1.price mark1.ts_ms htrip
  have e : tick_once cfg expf fe ⟨lg, ema, cb0⟩ now results =
      (match lg with
       | some good =>
         finishPublish fe ⟨lg, ema, (cb0.tripped mark1.price mark1.ts_ms).2⟩ good
       | none =>
         { state := ⟨lg, ema, (cb0.tripped mark1.price mark1.ts_ms).2⟩,
           published_mark := none, published_funding := none }) := by
    unfold tick_once
    rw [hm]
    simp only [htrip, if_true]
    cases lg <;> rfl
  constructor
  · intro good hg
    subst hg
    rw [e]
    exact ⟨rfl, rfl, hcb⟩
  · intro hg
    subst hg
    rw [e, hcb]

/-- Witness for C5, scenario S4: anchor (100, 0), consensus 110 at 30 s is
step-clamped to 104.04, trips the breaker (move 0.0808 > 0.07), and the tick
publishes the stored mark 102 unchanged, keeping anchor and last good mark. -/
theorem breaker_freeze_frame_witness :
    (tick_once cfgW (fun _ => 1) feW stTripW 30000 resJumpW).published_mark = some goodW ∧
    (tick_once cfgW (fun _ => 1) feW stTripW 30000 resJumpW).state.last_good_mark =
      some goodW ∧
    (tick_once cfgW (fun _ => 1) feW stTripW 30000 resJumpW).state.cb = stTripW.cb := by
  have h := breaker_freeze_frame cfgW (fun _ => 1) feW stTripW 30000 resJumpW markJumpW
    (by decide) (by decide)
  exact h.1 goodW (by decide)

/-- C2: when a previous good mark `prev` exists, every mark the tick
publishes lies within the relative step bound `max(max_step_per_tick, 5e-4)`
of `prev.price`, and becomes the new `last_good_mark` (so consecutively
published marks obey the bound); moreover the clamp never aborts the tick:
whenever the pre-breaker pipeline produces a mark, something is published. -/
theorem step_clamp_consecutive (cfg : OracleConfig) (expf : ℚ → ℚ) (fe : FundingEngine)
    (st : OracleState) (now : ℤ) (results : List (Option ProviderTick)) (prev : IndexTick)
    (hprev : st.last_good_mark = some prev) (hpos : 0 ≤ prev.price) :
    (∀ m, (tick_once cfg expf fe st now results).published_mark = some m →
      |m.price - prev.price| ≤ max cfg.max_step_per_tick 0.0005 * prev.price ∧
      (tick_once cfg expf fe st now results).state.last_good_mark = some m) ∧
    (∀ mark1, clampedMark cfg expf st.last_good_mark now results = some mark1 →
      ((tick_once cfg expf fe st now results).published_mark).isSome = true) := by
  have hsp : 0 ≤ max cfg.max_step_per_tick 0.0005 * prev.price :=
    mul_nonneg (le_trans (by norm_num) (le_max_right _ _)) hpos
  cases hcm : clampedMark cfg expf st.last_good_mark now results with
  | none =>
    have e : tick_once cfg expf fe st now results =
        { state := st, published_mark := none, published_funding := none } := by
      unfold tick_once
      rw [hcm]
    refine ⟨fun m hpm => ?_, fun mark1 h1 => ?_⟩
    · rw [e] at hpm
      simp at hpm
    · simp [hcm] at h1
  | some mark1 =>
    obtain ⟨-, -, mark0, stats, hb, hclamp⟩ :=
      clampedMark_eq_some cfg expf st.last_good_mark now results mark1 hcm
    have hbound : |mark1.price - prev.price| ≤
        max cfg.max_step_per_tick 0.0005 * prev.price := by
      rw [hclamp, hprev]
      exact stepClamp_bound prev mark0 _ hpos
    by_cases htrip : (st.cb.tripped mark1.price mark1.ts_ms).1 = true
    · have e : tick_once cfg expf fe st now results =
          finishPublish fe { st with cb := (st.cb.tripped mark1.price mark1.ts_ms).2 }
            prev := by
        unfold tick_once
        rw [hcm]
        simp only [htrip, if_true, hprev]
      refine ⟨fun m hpm => ?_, fun mark1' h1 => ?_⟩
      · rw [e] at hpm
        have hm' : prev = m := by simpa [finishPublish] using hpm
        subst hm'
        constructor
        · rw [sub_self, abs_zero]
          exact hsp
        · rw [e]
          exact hprev
      · rw [e]
        rfl
    · have hf : (st.cb.tripped mark1.price mark1.ts_ms).1 = false := by simpa using htrip
      have e : tick_once cfg expf fe st now results =
          finishPublish fe
            { st with
              cb := (st.cb.tripped mark1.price mark1.ts_ms).2
              last_good_mark := some mark1 }
            mark1 := by
        unfold tick_once
        rw [hcm]
        simp only [hf, Bool.false_eq_true, if_false]
      refine ⟨fun m hpm => ?_, fun mark1' h1 => ?_⟩
      · rw [e] at hpm
        have hm' : mark1 = m := by simpa [finishPublish] using hpm
        subst hm'
        refine ⟨hbound, ?_⟩
        rw [e]
        rfl
      · rw [e]
        rfl

/-- Witness for C2: from last good mark 100 the tick publishes the fused
100.5, within the 2% step bound, and stores it as the new last good mark. -/
theorem step_clamp_consecutive_witness :
    |tickW.price - prevW.price| ≤ max cfgW.max_step_per_tick 0.0005 * prevW.price ∧
    (tick_once cfgW (fun _ => 1) feW stPrevW 0 resW).state.last_good_mark = some tickW := by
  have h := step_clamp_consecutive cfgW (fun _ => 1) feW stPrevW 0 resW prevW
    (by decide) (by decide)
  exact h.1 tickW (by decide)

/-- C1: in CFD-only mode every mark the tick publishes has a strictly
positive (and, in the `ℚ` model of `f64`, intrinsically finite) price —
`collect_cfd_quotes` admits only finite positive prices and consensus
fusion, step clamp and breaker freeze all preserve positivity — and tick
preserves positivity of `last_good_mark`.  The hypothesis on `expf` is the
nonnegativity of `f64::exp`. -/
theorem published_mark_positive (cfg : OracleConfig) (expf : ℚ → ℚ) (fe : FundingEngine)
    (st : OracleState) (now : ℤ) (results : List (Option ProviderTick))
    (hexp : ∀ x, 0 ≤ expf x)
    (hinv : ∀ g, st.last_good_mark = some g → 0 < g.price) :
    (∀ m, (tick_once cfg expf fe st now results).published_mark = some m → 0 < m.price) ∧
    (∀ m, (tick_once cfg expf fe st now results).state.last_good_mark = some m →
      0 < m.price) := by
  cases hcm : clampedMark cfg expf st.last_good_mark now results with
  | none =>
    have e : tick_once cfg expf fe st now results =
        { state := st, published_mark := none, published_funding := none } := by
      unfold tick_once
      rw [hcm]
    refine ⟨fun m hpm => ?_, fun m hm => ?_⟩
    · rw [e] at hpm
      simp at hpm
    · rw [e] at hm
      exact hinv m hm
  | some mark1 =>
    obtain ⟨-, -, mark0, stats, hb, hclamp⟩ :=
      clampedMark_eq_some cfg expf st.last_good_mark now results mark1 hcm
    have hkept : ∀ q ∈ CfdConsensus.keptOf (builderOf cfg expf).mad_k
        (freshQuotes cfg now results), 0 < q.price :=
      fun q h => fresh_mem_pos cfg now results q (List.mem_of_mem_filter h)
    obtain ⟨-, hkne, -, -, -⟩ := CfdConsensus.build_eq_some _ _ _ _ _ hb
    have hbnd := CfdConsensus.build_price_bounds _ _ _ _ _ hexp hb
    have hm0 : 0 < mark0.price :=
      lt_of_lt_of_le (CfdConsensus.minKept_pos _ hkept hkne) hbnd.1
    have hm1 : 0 < mark1.price := by
      rw [hclamp]
      exact stepClamp_pos st.last_good_mark _ mark0 hm0 hinv
    by_cases htrip : (st.cb.tripped mark1.price mark1.ts_ms).1 = true
    · cases hlg : st.last_good_mark with
      | none =>
        have e : tick_once cfg expf fe st now results =
            { state := { st with cb := (st.cb.tripped mark1.price mark1.ts_ms).2 },
              published_mark := none, published_funding := none } := by
          unfold tick_once
          rw [hcm]
          simp only [htrip, if_true, hlg]
        refine ⟨fun m hpm => ?_, fun m hm => ?_⟩
        · rw [e] at hpm
          simp at hpm
        · rw [e] at hm
          simp only at hm
          rw [show ({ st with cb := (st.cb.tripped mark1.price mark1.ts_ms).2 } :
            OracleState).last_good_mark = st.last_good_mark from rfl, hlg] at hm
          cases hm
      | some good =>
        have e : tick_once cfg expf fe st now results =
            finishPublish fe { st with cb := (st.cb.tripped mark1.price mark1.ts_ms).2 }
              good := by
          unfold tick_once
          rw [hcm]
          simp only [htrip, if_true, hlg]
        refine ⟨fun m hpm => ?_, fun m hm => ?_⟩
        · rw [e] at hpm
          have hm' : good = m := by simpa [finishPublish] using hpm
          subst hm'
          exact hinv good hlg
        · rw [e] at hm
          have hm' : good = m := by simpa [finishPublish, hlg] using hm
          subst hm'
          exact hinv good hlg
    · have hf : (st.cb.tripped mark1.price mark1.ts_ms).1 = false := by simpa using htrip
      have e : tick_once cfg expf fe st now results =
          finishPublish fe
            { st with
              cb := (st.cb.tripped mark1.price mark1.ts_ms).2
              last_good_mark := some mark1 }
            mark1 := by
        unfold tick_once
        rw [hcm]
        simp only [hf, Bool.false_eq_true, if_false]
      refine ⟨fun m hpm => ?_, fun m hm => ?_⟩
      · rw [e] at hpm
        have hm' : mark1 = m := by simpa [finishPublish] using hpm
        subst hm'
        exact hm1
      · rw [e] at hm
        have hm' : mark1 = m := by simpa [finishPublish] using hm
        subst hm'
        exact hm1

/-- Witness for C1: the mark published from the two positive quotes
(100, 101) on a fresh state has price 100.5 > 0. -/
theorem published_mark_positive_witness : 0 < tickW.price :=
  (published_mark_positive cfgW (fun _ => 1) feW stEmptyW 0 resW
    (fun x => by norm_num) (fun g hg => by simp [stEmptyW] at hg)).1 tickW (by decide)
